import Mathlib

/-!
Shallow embedding of `ordmap` (src/src/lib.rs), a dual-index map:
a primary index `values : HashMap<K, (O, V)>` and a secondary index
`ordered_keys : BTreeMap<O, HashSet<K>>`.

Modelling choices:
* `HashMap` and `BTreeMap` are modelled as `Finmap` (finite maps compared by
  content, exactly as Rust's `HashMap`/`BTreeMap` equality behaves), and
  `HashSet` as `Finset`.  `BTreeMap::pop_first`/`first_key_value` select the
  minimum key, modelled via `Finset.min'` over the map's key set.
* A Rust panic (failed `unwrap` or `assert!`) is modelled as `none` at the
  outer `Option` layer of each operation; a successful call returns
  `some (result, newState)`.
* `HashSet` iteration order is unspecified in Rust; the model iterates a
  group in sorted key order (`sortKeys`), one fixed admissible order.
-/

namespace Ordmap

/-- The container state: primary index `values` (key to (order, value)) and
secondary index `ordered_keys` (order to the set of keys holding that order).
Mirrors `struct Map` in src/src/lib.rs. -/
structure Map (K O V : Type) where
  values : Finmap (fun _ : K => O × V)
  ordered_keys : Finmap (fun _ : O => Finset K)

variable {K O V : Type} [LinearOrder K] [LinearOrder O]

/-- `Map::new()`: both indexes empty. -/
def Map.new : Map K O V := ⟨∅, ∅⟩

instance [DecidableEq V] : DecidableEq (Map K O V) := fun s t =>
  if h1 : s.values = t.values then
    if h2 : s.ordered_keys = t.ordered_keys then
      isTrue (by cases s; cases t; cases h1; cases h2; rfl)
    else isFalse (fun h => by cases h; exact h2 rfl)
  else isFalse (fun h => by cases h; exact h1 rfl)

/-- Extract the elements of a multiset as a sorted list.  Used to model
iteration over a `HashSet` (whose order Rust leaves unspecified) by one fixed
admissible order. -/
def sortedList (m : Multiset K) : List K :=
  Quot.liftOn m (List.insertionSort (· ≤ ·)) (fun l₁ l₂ h =>
    List.eq_of_perm_of_sorted
      ((List.perm_insertionSort _ l₁).trans (h.trans
        (List.perm_insertionSort _ l₂).symm))
      (List.sorted_insertionSort _ l₁) (List.sorted_insertionSort _ l₂))

/-- Iteration order of a key group: its keys, sorted. -/
def sortKeys (g : Finset K) : List K := sortedList g.val

/-- `Map::remove_ordered_key`: removes `key` from the group of `order` in the
secondary index, deleting the group when it becomes empty.  `none` models the
panics: the `unwrap` when `order` has no group, and the `assert!` when `key`
is not a member of that group. -/
def Map.remove_ordered_key (s : Map K O V) (order : O) (key : K) :
    Option (Map K O V) :=
  match s.ordered_keys.lookup order with
  | none => none
  | some keys =>
    if key ∈ keys then
      let keys' := keys.erase key
      if keys' = ∅ then
        some { s with ordered_keys := s.ordered_keys.erase order }
      else
        some { s with ordered_keys := s.ordered_keys.insert order keys' }
    else none

/-- `Map::remove`: removes an entry by key.  The inner `Option` is the Rust
return value (`None` when the key is absent); the outer `Option` models
panics inside `remove_ordered_key`. -/
def Map.remove (s : Map K O V) (key : K) :
    Option (Option (O × V) × Map K O V) :=
  match s.values.lookup key with
  | none => some (none, s)
  | some (order, value) =>
    match Map.remove_ordered_key { s with values := s.values.erase key }
        order key with
    | none => none
    | some s' => some (some (order, value), s')

/-- The loop body of `Map::remove_smallest`: for each key of the popped
group, `self.values.remove(&key).unwrap()` and push the (key, value) pair.
`none` models the `unwrap` panic. -/
def removeValues (values : Finmap (fun _ : K => O × V)) :
    List K → Option (List (K × V) × Finmap (fun _ : K => O × V))
  | [] => some ([], values)
  | k :: ks =>
    match values.lookup k with
    | none => none
    | some (_, v) =>
      match removeValues (values.erase k) ks with
      | none => none
      | some (l, m) => some ((k, v) :: l, m)

/-- `Map::remove_smallest`: pops the minimum order and its whole group
(`BTreeMap::pop_first`), removing every key of the group from the primary
index.  Inner `Option`: `None` when the container is empty.  Outer `Option`:
panic (an `unwrap` failure). -/
def Map.remove_smallest (s : Map K O V) :
    Option (Option (O × List (K × V)) × Map K O V) :=
  if h : s.ordered_keys.keys.Nonempty then
    let order := s.ordered_keys.keys.min' h
    match s.ordered_keys.lookup order with
    | none => none
    | some keys =>
      match removeValues s.values (sortKeys keys) with
      | none => none
      | some (smallest, values') =>
        some (some (order, smallest), ⟨values', s.ordered_keys.erase order⟩)
  else some (none, s)

/-- The loop body of `Map::peek_smallest`: look up each key of the minimum
group (`self.values.get(&key).unwrap()`).  `none` models the `unwrap` panic. -/
def lookupValues (values : Finmap (fun _ : K => O × V)) :
    List K → Option (List (K × V))
  | [] => some []
  | k :: ks =>
    match values.lookup k with
    | none => none
    | some (_, v) =>
      match lookupValues values ks with
      | none => none
      | some l => some ((k, v) :: l)

/-- `Map::peek_smallest`: reads the minimum order and its group without
mutating the container (the model returns no state, so immutability is by
construction).  Inner `Option`: `None` when the container is empty.  Outer
`Option`: panic. -/
def Map.peek_smallest (s : Map K O V) : Option (Option (O × List (K × V))) :=
  if h : s.ordered_keys.keys.Nonempty then
    let order := s.ordered_keys.keys.min' h
    match s.ordered_keys.lookup order with
    | none => none
    | some keys =>
      match lookupValues s.values (sortKeys keys) with
      | none => none
      | some smallest => some (some (order, smallest))
  else some none

/-- The insertion tail of `Map::add`: `ordered_keys.entry(order)
.or_insert_with(HashSet::new).insert(key)` (asserted to insert a fresh key)
followed by `values.insert(key, (order, value))` (asserted to find no old
entry).  `none` models either `assert!` failing. -/
def Map.add_entry (s : Map K O V) (key : K) (order : O) (value : V)
    (old_entry : Option (O × V)) : Option (Option (O × V) × Map K O V) :=
  let g := (s.ordered_keys.lookup order).getD ∅
  if key ∈ g then none
  else if (s.values.lookup key).isSome then none
  else
    some (old_entry,
      ⟨s.values.insert key (order, value),
       s.ordered_keys.insert order (insert key g)⟩)

/-- `Map::add`: when `key` already exists its old entry is detached from both
indexes first (`values.remove` then `remove_ordered_key`), then the new entry
is inserted into both indexes; returns the old entry when there was one. -/
def Map.add (s : Map K O V) (key : K) (order : O) (value : V) :
    Option (Option (O × V) × Map K O V) :=
  match s.values.lookup key with
  | some (old_order, old_value) =>
    match Map.remove_ordered_key { s with values := s.values.erase key }
        old_order key with
    | none => none
    | some s1 => Map.add_entry s1 key order value (some (old_order, old_value))
  | none => Map.add_entry s key order value none

/-- States reachable from `Map::new` by successful (non-panicking) public
operations. -/
inductive Reachable : Map K O V → Prop
  | new : Reachable Map.new
  | add {s s' : Map K O V} {k : K} {o : O} {v : V} {r : Option (O × V)} :
      Reachable s → Map.add s k o v = some (r, s') → Reachable s'
  | remove {s s' : Map K O V} {k : K} {r : Option (O × V)} :
      Reachable s → Map.remove s k = some (r, s') → Reachable s'
  | remove_smallest {s s' : Map K O V} {r : Option (O × List (K × V))} :
      Reachable s → Map.remove_smallest s = some (r, s') → Reachable s'

/-- The set of keys currently registered in `values` under order `o`. -/
def groupOf (values : Finmap (fun _ : K => O × V)) (o : O) : Finset K :=
  values.keys.filter (fun k => (values.lookup k).map Prod.fst = some o)

/-- The secondary index is exactly determined by the primary one: each order
maps to its (nonempty) key group, and orders with no keys are absent. -/
def Canonical (s : Map K O V) : Prop :=
  ∀ o, s.ordered_keys.lookup o =
    if (groupOf s.values o).Nonempty then some (groupOf s.values o) else none

/-- The dual-index consistency invariant, stated as in the specification. -/
def Inv (s : Map K O V) : Prop :=
  (∀ k o v, s.values.lookup k = some (o, v) →
    ∃ g, s.ordered_keys.lookup o = some g ∧ k ∈ g) ∧
  (∀ o g, s.ordered_keys.lookup o = some g →
    g.Nonempty ∧ ∀ k ∈ g, ∃ v, s.values.lookup k = some (o, v))

/-- The (key, value) pair that the loops of `remove_smallest` and
`peek_smallest` produce for key `k`. -/
def entryOf (values : Finmap (fun _ : K => O × V)) (k : K) :
    Option (K × V) :=
  (values.lookup k).map (fun p => (k, p.2))

/-- Repeatedly call `remove_smallest` (at most `fuel` times), collecting the
returned groups, until it reports an empty container (or fuel runs out).
`none` models a panic in one of the calls. -/
def drain : Nat → Map K O V → Option (List (O × List (K × V)) × Map K O V)
  | 0, s => some ([], s)
  | n + 1, s =>
    match s.remove_smallest with
    | none => none
    | some (none, s') => some ([], s')
    | some (some r, s') =>
      match drain n s' with
      | none => none
      | some (res, t) => some (r :: res, t)

/-- Concrete state for witnesses: the result of `add(0, 0, 0)` on a fresh
container. -/
def ex1 : Map ℕ ℕ ℕ := ⟨Finmap.singleton 0 (0, 0), Finmap.singleton 0 {0}⟩

/-- Concrete state: `ex1` after `add(0, 0, 1)` (same key, same order, new
value). -/
def ex1b : Map ℕ ℕ ℕ := ⟨Finmap.singleton 0 (0, 1), Finmap.singleton 0 {0}⟩

/-- Concrete state: `ex1` after `add(0, 1, 1)` (same key, new order). -/
def ex2 : Map ℕ ℕ ℕ := ⟨Finmap.singleton 0 (1, 1), Finmap.singleton 1 {0}⟩

/-! ### Basic lemmas -/

theorem mem_groupOf {m : Finmap (fun _ : K => O × V)} {o : O} {k : K} :
    k ∈ groupOf m o ↔ ∃ v, m.lookup k = some (o, v) := by
  unfold groupOf
  rw [Finset.mem_filter]
  cases hl : m.lookup k with
  | none => simp
  | some p =>
    rcases p with ⟨o', v⟩
    have hk : k ∈ m.keys := Finmap.mem_keys.2 (Finmap.mem_of_lookup_eq_some hl)
    simp only [Option.map_some', Option.some.injEq, Prod.mk.injEq, hk, true_and]
    constructor
    · rintro rfl
      exact ⟨v, rfl, rfl⟩
    · rintro ⟨w, ho, -⟩
      exact ho

theorem mem_groupOf_insert {m : Finmap (fun _ : K => O × V)} {k k' : K}
    {o o' : O} {v : V} :
    k' ∈ groupOf (m.insert k (o, v)) o' ↔
      (k' = k ∧ o' = o) ∨ (k' ≠ k ∧ k' ∈ groupOf m o') := by
  by_cases hk : k' = k
  · subst hk
    constructor
    · intro hmem
      rcases mem_groupOf.1 hmem with ⟨w, hw⟩
      rw [Finmap.lookup_insert] at hw
      exact Or.inl ⟨rfl, (congrArg Prod.fst (Option.some.inj hw)).symm⟩
    · rintro (⟨-, rfl⟩ | ⟨hne, -⟩)
      · exact mem_groupOf.2 ⟨v, Finmap.lookup_insert m⟩
      · exact absurd rfl hne
  · rw [mem_groupOf, Finmap.lookup_insert_of_ne _ hk, ← mem_groupOf]
    simp [hk]

theorem mem_groupOf_erase {m : Finmap (fun _ : K => O × V)} {k k' : K}
    {o' : O} :
    k' ∈ groupOf (m.erase k) o' ↔ k' ≠ k ∧ k' ∈ groupOf m o' := by
  by_cases hk : k' = k
  · subst hk
    simp [mem_groupOf, Finmap.lookup_erase]
  · rw [mem_groupOf, Finmap.lookup_erase_ne hk, ← mem_groupOf]
    simp [hk]

theorem coe_sortedList (m : Multiset K) : (sortedList m : Multiset K) = m := by
  refine Quot.inductionOn m (fun l => ?_)
  exact Quotient.sound (List.perm_insertionSort _ l)

theorem mem_sortKeys {g : Finset K} {k : K} : k ∈ sortKeys g ↔ k ∈ g := by
  rw [← Multiset.mem_coe, sortKeys, coe_sortedList, ← Finset.mem_def]

theorem nodup_sortKeys (g : Finset K) : (sortKeys g).Nodup := by
  rw [← Multiset.coe_nodup, sortKeys, coe_sortedList]
  exact g.nodup

theorem sortKeys_ne_nil {g : Finset K} (h : g.Nonempty) : sortKeys g ≠ [] := by
  rcases h with ⟨k, hk⟩
  exact List.ne_nil_of_mem (mem_sortKeys.2 hk)

theorem finmap_insert_erase {m : Finmap (fun _ : K => O × V)} {k : K}
    {b : O × V} : (m.erase k).insert k b = m.insert k b := by
  refine Finmap.ext_lookup (fun x => ?_)
  by_cases hx : x = k
  · subst hx
    rw [Finmap.lookup_insert, Finmap.lookup_insert]
  · rw [Finmap.lookup_insert_of_ne _ hx, Finmap.lookup_insert_of_ne _ hx,
      Finmap.lookup_erase_ne hx]

theorem finmap_ne_empty_iff {m : Finmap (fun _ : K => O × V)} :
    m ≠ ∅ ↔ ∃ k p, m.lookup k = some p := by
  constructor
  · intro h
    by_contra hn
    push_neg at hn
    refine h (Finmap.ext_lookup (fun x => ?_))
    rw [Finmap.lookup_empty]
    cases hl : m.lookup x with
    | none => rfl
    | some p => exact absurd hl (hn x p)
  · rintro ⟨k, p, hk⟩ h
    rw [h, Finmap.lookup_empty] at hk
    cases hk

/-! ### Canonical-form lemmas -/

theorem canonical_new : Canonical (Map.new : Map K O V) := by
  intro o
  have hg : groupOf ((Map.new : Map K O V).values) o = ∅ := by
    ext k
    simp [mem_groupOf, Map.new, Finmap.lookup_empty]
  rw [hg]
  simp [Map.new, Finmap.lookup_empty]

theorem canonical_lookup_eq {s : Map K O V} (hc : Canonical s) {o : O}
    (h : (groupOf s.values o).Nonempty) :
    s.ordered_keys.lookup o = some (groupOf s.values o) := by
  rw [hc o, if_pos h]

theorem canonical_lookup_none {s : Map K O V} (hc : Canonical s) {o : O}
    (h : ¬(groupOf s.values o).Nonempty) : s.ordered_keys.lookup o = none := by
  rw [hc o, if_neg h]

theorem canonical_inv {s : Map K O V} (hc : Canonical s) : Inv s := by
  constructor
  · intro k o v hk
    have hm : k ∈ groupOf s.values o := mem_groupOf.2 ⟨v, hk⟩
    exact ⟨groupOf s.values o, canonical_lookup_eq hc ⟨k, hm⟩, hm⟩
  · intro o g hg
    have hne : (groupOf s.values o).Nonempty := by
      by_contra hn
      rw [canonical_lookup_none hc hn] at hg
      cases hg
    rw [canonical_lookup_eq hc hne] at hg
    cases hg
    exact ⟨hne, fun k hk => mem_groupOf.1 hk⟩

theorem canonical_mem_keys {s : Map K O V} (hc : Canonical s) {o : O} :
    o ∈ s.ordered_keys.keys ↔ (groupOf s.values o).Nonempty := by
  rw [Finmap.mem_keys, ← Finmap.lookup_isSome, hc o]
  by_cases h : (groupOf s.values o).Nonempty <;> simp [h]

theorem canonical_keys_nonempty {s : Map K O V} (hc : Canonical s) :
    s.ordered_keys.keys.Nonempty ↔ s.values ≠ ∅ := by
  rw [finmap_ne_empty_iff]
  constructor
  · rintro ⟨o, ho⟩
    rcases (canonical_mem_keys hc).1 ho with ⟨k, hk⟩
    rcases mem_groupOf.1 hk with ⟨v, hv⟩
    exact ⟨k, (o, v), hv⟩
  · rintro ⟨k, ⟨o, v⟩, hk⟩
    exact ⟨o, (canonical_mem_keys hc).2 ⟨k, mem_groupOf.2 ⟨v, hk⟩⟩⟩

theorem canonical_ordered_empty {s : Map K O V} (hc : Canonical s)
    (h : s.values = ∅) : s.ordered_keys = ∅ := by
  refine Finmap.ext_lookup (fun o => ?_)
  rw [Finmap.lookup_empty, canonical_lookup_none hc]
  rintro ⟨k, hk⟩
  rcases mem_groupOf.1 hk with ⟨v, hv⟩
  rw [h, Finmap.lookup_empty] at hv
  cases hv

/-! ### The value-collection loops -/

theorem entryOf_eq_some {values : Finmap (fun _ : K => O × V)} {a k : K}
    {v : V} : entryOf values a = some (k, v) ↔
      a = k ∧ ∃ o, values.lookup a = some (o, v) := by
  unfold entryOf
  cases hl : values.lookup a with
  | none => simp
  | some p =>
    rcases p with ⟨o, w⟩
    simp only [Option.map_some', Option.some.injEq, Prod.mk.injEq]
    constructor
    · rintro ⟨rfl, rfl⟩
      exact ⟨rfl, o, rfl, rfl⟩
    · rintro ⟨rfl, o', -, rfl⟩
      exact ⟨rfl, rfl⟩

theorem mem_entry_filterMap {values : Finmap (fun _ : K => O × V)}
    {l : List K} {k : K} {v : V} :
    (k, v) ∈ l.filterMap (entryOf values) ↔
      k ∈ l ∧ ∃ o, values.lookup k = some (o, v) := by
  rw [List.mem_filterMap]
  constructor
  · rintro ⟨a, ha, hfa⟩
    rcases entryOf_eq_some.1 hfa with ⟨rfl, ho⟩
    exact ⟨ha, ho⟩
  · rintro ⟨hk, ho⟩
    exact ⟨k, hk, entryOf_eq_some.2 ⟨rfl, ho⟩⟩

theorem entry_filterMap_fst {values : Finmap (fun _ : K => O × V)} :
    ∀ {l : List K}, (∀ k ∈ l, k ∈ values) →
      (l.filterMap (entryOf values)).map Prod.fst = l := by
  intro l
  induction l with
  | nil => intro _; rfl
  | cons k ks ih =>
    intro hall
    rcases Finmap.mem_iff.1 (hall k (List.mem_cons_self k ks)) with ⟨⟨o, v⟩, hk⟩
    have hek : entryOf values k = some (k, v) := by
      simp [entryOf, hk]
    rw [List.filterMap_cons, hek, List.map_cons,
      ih (fun a ha => hall a (List.mem_cons_of_mem _ ha))]

theorem removeValues_spec {values : Finmap (fun _ : K => O × V)}
    {l : List K} (hnd : l.Nodup) (hall : ∀ k ∈ l, k ∈ values) :
    ∃ m, removeValues values l = some (l.filterMap (entryOf values), m) ∧
      ∀ k, m.lookup k = if k ∈ l then none else values.lookup k := by
  induction l generalizing values with
  | nil =>
    refine ⟨values, rfl, fun k => ?_⟩
    simp
  | cons k ks ih =>
    rcases Finmap.mem_iff.1 (hall k (List.mem_cons_self k ks)) with ⟨⟨o, v⟩, hk⟩
    rcases List.nodup_cons.1 hnd with ⟨hkn, hnd'⟩
    have hall' : ∀ a ∈ ks, a ∈ values.erase k := fun a ha =>
      Finmap.mem_erase.2 ⟨fun h => hkn (h ▸ ha), hall a (List.mem_cons_of_mem _ ha)⟩
    rcases ih hnd' hall' with ⟨m, hm, hlook⟩
    refine ⟨m, ?_, ?_⟩
    · have hcongr : ks.filterMap (entryOf (values.erase k)) =
          ks.filterMap (entryOf values) := by
        refine List.filterMap_congr (fun a ha => ?_)
        have hne : a ≠ k := fun h => hkn (h ▸ ha)
        unfold entryOf
        rw [Finmap.lookup_erase_ne hne]
      have hek : entryOf values k = some (k, v) := by
        simp [entryOf, hk]
      simp only [removeValues, hk, hm, List.filterMap_cons, hek, hcongr]
    · intro a
      by_cases ha : a = k
      · subst ha
        rw [hlook a, if_pos (List.mem_cons_self a ks)]
        by_cases haks : a ∈ ks
        · rw [if_pos haks]
        · rw [if_neg haks, Finmap.lookup_erase]
      · rw [hlook a]
        by_cases haks : a ∈ ks
        · rw [if_pos haks, if_pos (List.mem_cons_of_mem _ haks)]
        · rw [if_neg haks, if_neg (by simp [ha, haks]),
            Finmap.lookup_erase_ne ha]

theorem lookupValues_spec {values : Finmap (fun _ : K => O × V)}
    {l : List K} (hall : ∀ k ∈ l, k ∈ values) :
    lookupValues values l = some (l.filterMap (entryOf values)) := by
  induction l with
  | nil => rfl
  | cons k ks ih =>
    rcases Finmap.mem_iff.1 (hall k (List.mem_cons_self k ks)) with ⟨⟨o, v⟩, hk⟩
    have hek : entryOf values k = some (k, v) := by
      simp [entryOf, hk]
    simp only [lookupValues, hk,
      ih (fun a ha => hall a (List.mem_cons_of_mem _ ha)),
      List.filterMap_cons, hek]

/-! ### Core specifications of the operations -/

theorem canonical_getD {s : Map K O V} (hc : Canonical s) (o : O) :
    (s.ordered_keys.lookup o).getD ∅ = groupOf s.values o := by
  by_cases h : (groupOf s.values o).Nonempty
  · rw [canonical_lookup_eq hc h]
    rfl
  · rw [canonical_lookup_none hc h]
    exact (Finset.not_nonempty_iff_eq_empty.1 h).symm

theorem lookup_ne_of_groupOf {m : Finmap (fun _ : K => O × V)} {k : K}
    {o o' : O} {v : V} (hk : m.lookup k = some (o, v)) (hne : o' ≠ o) :
    k ∉ groupOf m o' := by
  intro hmem
  rcases mem_groupOf.1 hmem with ⟨w, hw⟩
  rw [hk] at hw
  exact hne (congrArg Prod.fst (Option.some.inj hw)).symm

theorem add_entry_spec {s : Map K O V} (hc : Canonical s) {k : K}
    (hk : s.values.lookup k = none) (o : O) (v : V) (old : Option (O × V)) :
    ∃ s', Map.add_entry s k o v old = some (old, s') ∧
      s'.values = s.values.insert k (o, v) ∧ Canonical s' := by
  have hg : (s.ordered_keys.lookup o).getD ∅ = groupOf s.values o :=
    canonical_getD hc o
  have hkg : k ∉ groupOf s.values o := by
    intro hmem
    rcases mem_groupOf.1 hmem with ⟨w, hw⟩
    rw [hk] at hw
    cases hw
  refine ⟨⟨s.values.insert k (o, v),
    s.ordered_keys.insert o (insert k (groupOf s.values o))⟩, ?_, rfl, ?_⟩
  · unfold Map.add_entry
    simp only [hg, hk]
    rw [if_neg hkg, if_neg (by simp)]
  · intro o'
    by_cases ho' : o' = o
    · subst ho'
      have hgo : groupOf (s.values.insert k (o', v)) o' =
          insert k (groupOf s.values o') := by
        ext a
        rw [mem_groupOf_insert, Finset.mem_insert]
        constructor
        · rintro (⟨rfl, -⟩ | ⟨-, h⟩)
          · exact Or.inl rfl
          · exact Or.inr h
        · rintro (rfl | h)
          · exact Or.inl ⟨rfl, rfl⟩
          · by_cases hak : a = k
            · exact Or.inl ⟨hak, rfl⟩
            · exact Or.inr ⟨hak, h⟩
      show (s.ordered_keys.insert o' (insert k (groupOf s.values o'))).lookup o' = _
      rw [Finmap.lookup_insert, hgo,
        if_pos (Finset.insert_nonempty _ _)]
    · have hgo : groupOf (s.values.insert k (o, v)) o' = groupOf s.values o' := by
        ext a
        rw [mem_groupOf_insert]
        constructor
        · rintro (⟨rfl, ho⟩ | ⟨-, h⟩)
          · exact absurd ho ho'
          · exact h
        · intro h
          by_cases hak : a = k
          · subst hak
            rcases mem_groupOf.1 h with ⟨w, hw⟩
            rw [hk] at hw
            cases hw
          · exact Or.inr ⟨hak, h⟩
      show (s.ordered_keys.insert o (insert k (groupOf s.values o))).lookup o' = _
      rw [Finmap.lookup_insert_of_ne _ ho', hgo]
      exact hc o'

theorem remove_ordered_key_spec {s : Map K O V} (hc : Canonical s) {k : K}
    {o : O} {v : V} (hk : s.values.lookup k = some (o, v)) :
    ∃ t, Map.remove_ordered_key ⟨s.values.erase k, s.ordered_keys⟩ o k = some t ∧
      t.values = s.values.erase k ∧ Canonical t := by
  have hmem : k ∈ groupOf s.values o := mem_groupOf.2 ⟨v, hk⟩
  have hlook : s.ordered_keys.lookup o = some (groupOf s.values o) :=
    canonical_lookup_eq hc ⟨k, hmem⟩
  have hgerase : ∀ o', groupOf (s.values.erase k) o' =
      (groupOf s.values o').erase k := by
    intro o'
    ext a
    rw [mem_groupOf_erase, Finset.mem_erase]
  have hgsame : ∀ o', o' ≠ o → groupOf (s.values.erase k) o' =
      groupOf s.values o' := by
    intro o' ho'
    rw [hgerase o', Finset.erase_eq_of_not_mem (lookup_ne_of_groupOf hk ho')]
  by_cases hek : (groupOf s.values o).erase k = ∅
  · refine ⟨⟨s.values.erase k, s.ordered_keys.erase o⟩, ?_, rfl, ?_⟩
    · unfold Map.remove_ordered_key
      simp only [hlook]
      rw [if_pos hmem, if_pos hek]
    · intro o'
      by_cases ho' : o' = o
      · subst ho'
        show (s.ordered_keys.erase o').lookup o' = _
        rw [Finmap.lookup_erase, hgerase, hek]
        simp
      · show (s.ordered_keys.erase o).lookup o' = _
        rw [Finmap.lookup_erase_ne ho', hgsame o' ho']
        exact hc o'
  · refine ⟨⟨s.values.erase k,
      s.ordered_keys.insert o ((groupOf s.values o).erase k)⟩, ?_, rfl, ?_⟩
    · unfold Map.remove_ordered_key
      simp only [hlook]
      rw [if_pos hmem, if_neg hek]
    · intro o'
      by_cases ho' : o' = o
      · subst ho'
        show (s.ordered_keys.insert o' ((groupOf s.values o').erase k)).lookup o' = _
        rw [Finmap.lookup_insert, hgerase,
          if_pos (Finset.nonempty_iff_ne_empty.2 hek)]
      · show (s.ordered_keys.insert o ((groupOf s.values o).erase k)).lookup o' = _
        rw [Finmap.lookup_insert_of_ne _ ho', hgsame o' ho']
        exact hc o'

theorem remove_spec_absent {s : Map K O V} {k : K}
    (hk : s.values.lookup k = none) : s.remove k = some (none, s) := by
  simp only [Map.remove, hk]

theorem remove_spec_present {s : Map K O V} (hc : Canonical s) {k : K}
    {o : O} {v : V} (hk : s.values.lookup k = some (o, v)) :
    ∃ s', s.remove k = some (some (o, v), s') ∧
      s'.values = s.values.erase k ∧ Canonical s' := by
  rcases remove_ordered_key_spec hc hk with ⟨t, ht, htv, htc⟩
  refine ⟨t, ?_, htv, htc⟩
  simp only [Map.remove, hk, ht]

theorem add_spec_core {s : Map K O V} (hc : Canonical s) (k : K) (o : O)
    (v : V) :
    ∃ s', s.add k o v = some (s.values.lookup k, s') ∧
      s'.values = s.values.insert k (o, v) ∧ Canonical s' := by
  cases hk : s.values.lookup k with
  | none =>
    rcases add_entry_spec hc hk o v none with ⟨s', hs', hv, hcs⟩
    refine ⟨s', ?_, hv, hcs⟩
    simp only [Map.add, hk, hs']
  | some p =>
    rcases p with ⟨oo, ov⟩
    rcases remove_ordered_key_spec hc hk with ⟨t, ht, htv, htc⟩
    have htk : t.values.lookup k = none := by
      rw [htv]
      exact Finmap.lookup_erase k s.values
    rcases add_entry_spec htc htk o v (some (oo, ov)) with ⟨s', hs', hv, hcs⟩
    refine ⟨s', ?_, ?_, hcs⟩
    · simp only [Map.add, hk, ht, hs']
    · rw [hv, htv, finmap_insert_erase]

theorem remove_smallest_empty {s : Map K O V} (hc : Canonical s)
    (h : s.values = ∅) : s.remove_smallest = some (none, s) := by
  have hne : ¬s.ordered_keys.keys.Nonempty := by
    rw [canonical_keys_nonempty hc]
    intro hne
    exact hne h
  unfold Map.remove_smallest
  rw [dif_neg hne]

theorem peek_smallest_empty {s : Map K O V} (hc : Canonical s)
    (h : s.values = ∅) : s.peek_smallest = some none := by
  have hne : ¬s.ordered_keys.keys.Nonempty := by
    rw [canonical_keys_nonempty hc]
    intro hne
    exact hne h
  unfold Map.peek_smallest
  rw [dif_neg hne]

theorem remove_smallest_spec_core {s : Map K O V} (hc : Canonical s)
    (h : s.values ≠ ∅) :
    ∃ o l s', s.remove_smallest = some (some (o, l), s') ∧
      l = (sortKeys (groupOf s.values o)).filterMap (entryOf s.values) ∧
      s.ordered_keys.lookup o = some (groupOf s.values o) ∧
      (∀ o' k v, s.values.lookup k = some (o', v) → o ≤ o') ∧
      (∀ k, s'.values.lookup k =
        if k ∈ groupOf s.values o then none else s.values.lookup k) ∧
      s'.ordered_keys = s.ordered_keys.erase o ∧
      Canonical s' := by
  have hne : s.ordered_keys.keys.Nonempty := (canonical_keys_nonempty hc).2 h
  have homem : s.ordered_keys.keys.min' hne ∈ s.ordered_keys.keys :=
    Finset.min'_mem _ hne
  have hgo : (groupOf s.values (s.ordered_keys.keys.min' hne)).Nonempty :=
    (canonical_mem_keys hc).1 homem
  have hlook : s.ordered_keys.lookup (s.ordered_keys.keys.min' hne) =
      some (groupOf s.values (s.ordered_keys.keys.min' hne)) :=
    canonical_lookup_eq hc hgo
  have hall : ∀ a ∈ sortKeys (groupOf s.values (s.ordered_keys.keys.min' hne)),
      a ∈ s.values := by
    intro a ha
    rcases mem_groupOf.1 (mem_sortKeys.1 ha) with ⟨w, hw⟩
    exact Finmap.mem_of_lookup_eq_some hw
  rcases removeValues_spec (nodup_sortKeys _) hall with ⟨m, hmv, hmlook⟩
  have hmlook' : ∀ k, m.lookup k =
      if k ∈ groupOf s.values (s.ordered_keys.keys.min' hne) then none
      else s.values.lookup k := by
    intro a
    rw [hmlook a]
    by_cases ha : a ∈ groupOf s.values (s.ordered_keys.keys.min' hne)
    · rw [if_pos (mem_sortKeys.2 ha), if_pos ha]
    · rw [if_neg (fun hx => ha (mem_sortKeys.1 hx)), if_neg ha]
  refine ⟨s.ordered_keys.keys.min' hne, _,
    ⟨m, s.ordered_keys.erase (s.ordered_keys.keys.min' hne)⟩,
    ?_, rfl, hlook, ?_, hmlook', rfl, ?_⟩
  · unfold Map.remove_smallest
    rw [dif_pos hne]
    simp only [hlook, hmv]
  · intro o' a v ha
    have : o' ∈ s.ordered_keys.keys :=
      (canonical_mem_keys hc).2 ⟨a, mem_groupOf.2 ⟨v, ha⟩⟩
    exact Finset.min'_le _ _ this
  · intro o'
    by_cases ho' : o' = s.ordered_keys.keys.min' hne
    · show (s.ordered_keys.erase (s.ordered_keys.keys.min' hne)).lookup o' =
        if (groupOf m o').Nonempty then some (groupOf m o') else none
      rw [ho', Finmap.lookup_erase]
      have hempty : groupOf m (s.ordered_keys.keys.min' hne) = ∅ := by
        ext a
        simp only [Finset.not_mem_empty, iff_false]
        intro hmem
        rcases mem_groupOf.1 hmem with ⟨w, hw⟩
        rw [hmlook' a] at hw
        by_cases ha : a ∈ groupOf s.values (s.ordered_keys.keys.min' hne)
        · rw [if_pos ha] at hw
          cases hw
        · rw [if_neg ha] at hw
          exact ha (mem_groupOf.2 ⟨w, hw⟩)
      rw [hempty]
      simp
    · show (s.ordered_keys.erase (s.ordered_keys.keys.min' hne)).lookup o' =
        if (groupOf m o').Nonempty then some (groupOf m o') else none
      rw [Finmap.lookup_erase_ne ho']
      have hsame : groupOf m o' = groupOf s.values o' := by
        ext a
        rw [mem_groupOf, mem_groupOf]
        constructor
        · rintro ⟨w, hw⟩
          rw [hmlook' a] at hw
          by_cases ha : a ∈ groupOf s.values (s.ordered_keys.keys.min' hne)
          · rw [if_pos ha] at hw
            cases hw
          · rw [if_neg ha] at hw
            exact ⟨w, hw⟩
        · rintro ⟨w, hw⟩
          refine ⟨w, ?_⟩
          rw [hmlook' a,
            if_neg (lookup_ne_of_groupOf hw (fun hx => ho' hx.symm))]
          exact hw
      rw [hsame]
      exact hc o'

theorem peek_smallest_spec_core {s : Map K O V} (hc : Canonical s)
    (h : s.values ≠ ∅) :
    ∃ o l, s.peek_smallest = some (some (o, l)) ∧
      l = (sortKeys (groupOf s.values o)).filterMap (entryOf s.values) ∧
      s.ordered_keys.lookup o = some (groupOf s.values o) ∧
      (∀ o' k v, s.values.lookup k = some (o', v) → o ≤ o') := by
  have hne : s.ordered_keys.keys.Nonempty := (canonical_keys_nonempty hc).2 h
  have homem : s.ordered_keys.keys.min' hne ∈ s.ordered_keys.keys :=
    Finset.min'_mem _ hne
  have hgo : (groupOf s.values (s.ordered_keys.keys.min' hne)).Nonempty :=
    (canonical_mem_keys hc).1 homem
  have hlook : s.ordered_keys.lookup (s.ordered_keys.keys.min' hne) =
      some (groupOf s.values (s.ordered_keys.keys.min' hne)) :=
    canonical_lookup_eq hc hgo
  have hall : ∀ a ∈ sortKeys (groupOf s.values (s.ordered_keys.keys.min' hne)),
      a ∈ s.values := by
    intro a ha
    rcases mem_groupOf.1 (mem_sortKeys.1 ha) with ⟨w, hw⟩
    exact Finmap.mem_of_lookup_eq_some hw
  refine ⟨s.ordered_keys.keys.min' hne, _, ?_, rfl, hlook, ?_⟩
  · unfold Map.peek_smallest
    rw [dif_pos hne]
    simp only [hlook, lookupValues_spec hall]
  · intro o' a v ha
    have : o' ∈ s.ordered_keys.keys :=
      (canonical_mem_keys hc).2 ⟨a, mem_groupOf.2 ⟨v, ha⟩⟩
    exact Finset.min'_le _ _ this

/-! ### Reachability and derived helper lemmas -/

theorem reachable_canonical {s : Map K O V} (h : Reachable s) : Canonical s := by
  induction h with
  | new => exact canonical_new
  | @add s t k o v r _ heq ih =>
    rcases add_spec_core ih k o v with ⟨t', ht', -, htc⟩
    have h4 : t' = t :=
      congrArg Prod.snd (Option.some.inj (ht'.symm.trans heq))
    exact h4 ▸ htc
  | @remove s t k r _ heq ih =>
    cases hk : s.values.lookup k with
    | none =>
      have h4 : s = t :=
        congrArg Prod.snd (Option.some.inj ((remove_spec_absent hk).symm.trans heq))
      exact h4 ▸ ih
    | some p =>
      rcases p with ⟨o, v⟩
      rcases remove_spec_present ih hk with ⟨t', ht', -, htc⟩
      have h4 : t' = t :=
        congrArg Prod.snd (Option.some.inj (ht'.symm.trans heq))
      exact h4 ▸ htc
  | @remove_smallest s t r _ heq ih =>
    by_cases hv : s.values = ∅
    · have h4 : s = t :=
        congrArg Prod.snd (Option.some.inj ((remove_smallest_empty ih hv).symm.trans heq))
      exact h4 ▸ ih
    · rcases remove_smallest_spec_core ih hv with ⟨o, l, t', ht', -, -, -, -, -, htc⟩
      have h4 : t' = t :=
        congrArg Prod.snd (Option.some.inj (ht'.symm.trans heq))
      exact h4 ▸ htc

theorem mem_group_entries {m : Finmap (fun _ : K => O × V)} {o : O} {k : K}
    {v : V} :
    (k, v) ∈ (sortKeys (groupOf m o)).filterMap (entryOf m) ↔
      m.lookup k = some (o, v) := by
  rw [mem_entry_filterMap, mem_sortKeys, mem_groupOf]
  constructor
  · rintro ⟨⟨w, hw⟩, o'', hv'⟩
    rw [hv'] at hw
    rcases Prod.ext_iff.1 (Option.some.inj hw) with ⟨ho, -⟩
    have ho' : o'' = o := ho
    rw [hv', ho']
  · intro hkv
    exact ⟨⟨v, hkv⟩, o, hkv⟩

theorem group_nonempty_of_lookup {s : Map K O V} (hc : Canonical s) {o : O}
    (hlook : s.ordered_keys.lookup o = some (groupOf s.values o)) :
    (groupOf s.values o).Nonempty := by
  by_contra hn
  rw [canonical_lookup_none hc hn] at hlook
  cases hlook

theorem exists_entry_of_lookup_group {s : Map K O V} (hc : Canonical s)
    {o : O} (hlook : s.ordered_keys.lookup o = some (groupOf s.values o)) :
    ∃ k v, s.values.lookup k = some (o, v) := by
  rcases group_nonempty_of_lookup hc hlook with ⟨a, ha⟩
  rcases mem_groupOf.1 ha with ⟨w, hw⟩
  exact ⟨a, w, hw⟩

theorem sortKeys_group_sub {m : Finmap (fun _ : K => O × V)} {o : O} :
    ∀ a ∈ sortKeys (groupOf m o), a ∈ m := by
  intro a ha
  rcases mem_groupOf.1 (mem_sortKeys.1 ha) with ⟨w, hw⟩
  exact Finmap.mem_of_lookup_eq_some hw

theorem finmap_erase_insert {m : Finmap (fun _ : K => O × V)} {k : K}
    {b : O × V} (hk : m.lookup k = none) : (m.insert k b).erase k = m := by
  refine Finmap.ext_lookup (fun x => ?_)
  by_cases hx : x = k
  · subst hx
    rw [Finmap.lookup_erase, hk]
  · rw [Finmap.lookup_erase_ne hx, Finmap.lookup_insert_of_ne _ hx]

theorem canonical_ext {s t : Map K O V} (hs : Canonical s) (ht : Canonical t)
    (hv : s.values = t.values) : s = t := by
  rcases s with ⟨sv, sk⟩
  rcases t with ⟨tv, tk⟩
  cases hv
  have hk : sk = tk := by
    refine Finmap.ext_lookup (fun o => ?_)
    exact (hs o).trans (ht o).symm
  rw [hk]

theorem canonical_mem_group_iff {s : Map K O V} (hc : Canonical s) {o : O}
    {k : K} :
    (∃ g, s.ordered_keys.lookup o = some g ∧ k ∈ g) ↔
      k ∈ groupOf s.values o := by
  constructor
  · rintro ⟨g, hg, hkg⟩
    have hnon : (groupOf s.values o).Nonempty := by
      by_contra hn
      rw [canonical_lookup_none hc hn] at hg
      cases hg
    rw [canonical_lookup_eq hc hnon] at hg
    cases Option.some.inj hg
    exact hkg
  · intro hk
    exact ⟨groupOf s.values o, canonical_lookup_eq hc ⟨k, hk⟩, hk⟩

/-! ### Concrete reachable states for witnesses -/

theorem add_new_ex1 : Map.add (Map.new : Map ℕ ℕ ℕ) 0 0 0 = some (none, ex1) := by
  decide

theorem reachable_ex1 : Reachable ex1 := Reachable.add Reachable.new add_new_ex1

/-! ### The claims -/

/-- C1: dual-index consistency invariant.  For every state reachable from
`new` by public operations: every key in the primary index with order `o` is
a member of the secondary index's group for `o`; every key in any group of
the secondary index exists in the primary index with that order; and no group
is empty (`Inv` states exactly these three clauses). -/
theorem claim_C1_invariant {s : Map K O V} (h : Reachable s) : Inv s :=
  canonical_inv (reachable_canonical h)

theorem claim_C1_witness : Reachable ex1 ∧ Inv ex1 :=
  ⟨reachable_ex1, claim_C1_invariant reachable_ex1⟩

/-- C2: minimum correctness of `peek_smallest`.  On a reachable non-empty
state it returns the minimum order present, together with exactly the set of
(key, value) pairs registered under that order (membership iff); on the empty
state it returns the absence signal.  The model's `peek_smallest` takes the
state by value and returns no state, so the container is unchanged by
construction. -/
theorem claim_C2_peek_smallest {s : Map K O V} (h : Reachable s) :
    (s.values = ∅ → s.peek_smallest = some none) ∧
    (s.values ≠ ∅ → ∃ o l, s.peek_smallest = some (some (o, l)) ∧
      (∃ k v, s.values.lookup k = some (o, v)) ∧
      (∀ o' k v, s.values.lookup k = some (o', v) → o ≤ o') ∧
      (∀ k v, ((k, v) ∈ l ↔ s.values.lookup k = some (o, v)))) := by
  have hc := reachable_canonical h
  refine ⟨fun hv => peek_smallest_empty hc hv, fun hv => ?_⟩
  rcases peek_smallest_spec_core hc hv with ⟨o, l, he, hl, hlook, hmin⟩
  refine ⟨o, l, he, exists_entry_of_lookup_group hc hlook, hmin, fun k v => ?_⟩
  rw [hl]
  exact mem_group_entries

theorem claim_C2_witness :
    Reachable ex1 ∧
      ((ex1.values = ∅ → ex1.peek_smallest = some none) ∧
      (ex1.values ≠ ∅ → ∃ o l, ex1.peek_smallest = some (some (o, l)) ∧
        (∃ k v, ex1.values.lookup k = some (o, v)) ∧
        (∀ o' k v, ex1.values.lookup k = some (o', v) → o ≤ o') ∧
        (∀ k v, ((k, v) ∈ l ↔ ex1.values.lookup k = some (o, v))))) :=
  ⟨reachable_ex1, claim_C2_peek_smallest reachable_ex1⟩

/-- C5: `remove` returns the removed (order, value) pair when the key is
present, and the absence signal when it is not; in the absent case the state
returned is the very same `s` (both indexes structurally unchanged), so a
repeated call with the same missing key again returns absence. -/
theorem claim_C5_remove {s : Map K O V} (h : Reachable s) (k : K) :
    (∀ o v, s.values.lookup k = some (o, v) →
      ∃ s', s.remove k = some (some (o, v), s')) ∧
    (s.values.lookup k = none → s.remove k = some (none, s)) := by
  have hc := reachable_canonical h
  refine ⟨fun o v hk => ?_, fun hk => remove_spec_absent hk⟩
  rcases remove_spec_present hc hk with ⟨s', hs', -, -⟩
  exact ⟨s', hs'⟩

theorem claim_C5_witness :
    Reachable ex1 ∧
      ((∀ o v, ex1.values.lookup 1 = some (o, v) →
        ∃ s', ex1.remove 1 = some (some (o, v), s')) ∧
      (ex1.values.lookup 1 = none → ex1.remove 1 = some (none, ex1))) :=
  ⟨reachable_ex1, claim_C5_remove reachable_ex1 1⟩

/-- C8: no public operation panics on a reachable state: the internal
`unwrap`s and `assert!`s (modelled as the outer `Option` layer, `none` =
panic) always succeed, for every caller input. -/
theorem claim_C8_no_panic {s : Map K O V} (h : Reachable s) :
    (∀ k o v, (s.add k o v).isSome) ∧ (∀ k, (s.remove k).isSome) ∧
      (s.remove_smallest).isSome ∧ (s.peek_smallest).isSome := by
  have hc := reachable_canonical h
  refine ⟨fun k o v => ?_, fun k => ?_, ?_, ?_⟩
  · rcases add_spec_core hc k o v with ⟨s', he, -, -⟩
    rw [he]
    rfl
  · cases hk : s.values.lookup k with
    | none =>
      rw [remove_spec_absent hk]
      rfl
    | some p =>
      rcases p with ⟨o, v⟩
      rcases remove_spec_present hc hk with ⟨s', he, -, -⟩
      rw [he]
      rfl
  · by_cases hv : s.values = ∅
    · rw [remove_smallest_empty hc hv]
      rfl
    · rcases remove_smallest_spec_core hc hv with ⟨o, l, s', he, -, -, -, -, -, -⟩
      rw [he]
      rfl
  · by_cases hv : s.values = ∅
    · rw [peek_smallest_empty hc hv]
      rfl
    · rcases peek_smallest_spec_core hc hv with ⟨o, l, he, -, -, -⟩
      rw [he]
      rfl

theorem claim_C8_witness :
    Reachable ex1 ∧
      ((∀ k o v, (ex1.add k o v).isSome) ∧ (∀ k, (ex1.remove k).isSome) ∧
      (ex1.remove_smallest).isSome ∧ (ex1.peek_smallest).isSome) :=
  ⟨reachable_ex1, claim_C8_no_panic reachable_ex1⟩

/-- C3 counterexample: re-adding key 0 with the SAME order 0 to `ex1` (which
holds entry (0, 0, 0)).  The call returns the previous pair as the claim
says, but afterwards key 0 is still a member of the group of its old order 0
(old and new order coincide), and that group was not deleted although key 0
was its only member — refuting the claim's unconditional "afterwards key is
absent from its old order's group, that group being deleted entirely if key
was its only member". -/
theorem claim_C3_counterexample :
    Reachable ex1 ∧
      ex1.add 0 0 1 = some (some (0, 0), ex1b) ∧
      (0 : ℕ) ∈ ((ex1b.ordered_keys.lookup 0).getD ∅) ∧
      ex1b.ordered_keys.lookup 0 ≠ none :=
  ⟨reachable_ex1, by decide, by decide, by decide⟩

/-- C3 (amended): `add` returns the previous entry (the current primary-index
lookup); afterwards the key maps to the new (order, value) and is a member of
the new order's group; and when the key previously existed *under an order
different from the new one*, the key is absent from its old order's group,
that group being deleted entirely if the key was its only member. -/
theorem claim_C3_add {s : Map K O V} (h : Reachable s) (k : K) (o : O)
    (v : V) :
    ∃ s', s.add k o v = some (s.values.lookup k, s') ∧
      s'.values.lookup k = some (o, v) ∧
      (∃ g, s'.ordered_keys.lookup o = some g ∧ k ∈ g) ∧
      (∀ oo ov, s.values.lookup k = some (oo, ov) → oo ≠ o →
        (∀ g, s'.ordered_keys.lookup oo = some g → k ∉ g) ∧
        (s.ordered_keys.lookup oo = some {k} →
          s'.ordered_keys.lookup oo = none)) := by
  have hc := reachable_canonical h
  rcases add_spec_core hc k o v with ⟨s', he, hv, hcs⟩
  have hk' : s'.values.lookup k = some (o, v) := by
    rw [hv]
    exact Finmap.lookup_insert s.values
  refine ⟨s', he, hk',
    (canonical_mem_group_iff hcs).2 (mem_groupOf.2 ⟨v, hk'⟩), ?_⟩
  intro oo ov hold hne
  constructor
  · intro g hg hkg
    have hkg' : k ∈ groupOf s'.values oo :=
      (canonical_mem_group_iff hcs).1 ⟨g, hg, hkg⟩
    exact lookup_ne_of_groupOf hk' hne hkg'
  · intro hsing
    have hnon : (groupOf s.values oo).Nonempty := ⟨k, mem_groupOf.2 ⟨ov, hold⟩⟩
    have hgold : groupOf s.values oo = {k} := by
      have hle := canonical_lookup_eq hc hnon
      rw [hle] at hsing
      exact Option.some.inj hsing
    have hgnew : ¬(groupOf s'.values oo).Nonempty := by
      rintro ⟨a, ha⟩
      rcases mem_groupOf.1 ha with ⟨w, hw⟩
      rw [hv] at hw
      by_cases hak : a = k
      · subst hak
        rw [Finmap.lookup_insert] at hw
        rcases Prod.ext_iff.1 (Option.some.inj hw) with ⟨ho, -⟩
        have ho' : o = oo := ho
        exact hne ho'.symm
      · rw [Finmap.lookup_insert_of_ne _ hak] at hw
        have hmem : a ∈ groupOf s.values oo := mem_groupOf.2 ⟨w, hw⟩
        rw [hgold] at hmem
        exact hak (Finset.mem_singleton.1 hmem)
    exact canonical_lookup_none hcs hgnew

theorem claim_C3_witness :
    Reachable ex1 ∧
      (∃ s', ex1.add 1 0 9 = some (ex1.values.lookup 1, s') ∧
        s'.values.lookup 1 = some (0, 9) ∧
        (∃ g, s'.ordered_keys.lookup 0 = some g ∧ 1 ∈ g) ∧
        (∀ oo ov, ex1.values.lookup 1 = some (oo, ov) → oo ≠ 0 →
          (∀ g, s'.ordered_keys.lookup oo = some g → 1 ∉ g) ∧
          (ex1.ordered_keys.lookup oo = some {1} →
            s'.ordered_keys.lookup oo = none))) :=
  ⟨reachable_ex1, claim_C3_add reachable_ex1 1 0 9⟩

/-- C7 counterexample: the round-trip claim fails when the key already
exists.  State `ex1` (reachable, holds (0, 0, 0)); `add(0, 1, 1)` then
`remove(0)` returns `Some((1, 1))` but leaves the container empty
(`Map.new`), not in the pre-add state `ex1`: the original entry (0, 0, 0)
was destroyed by the add. -/
theorem claim_C7_counterexample :
    Reachable ex1 ∧
      ex1.add 0 1 1 = some (some (0, 0), ex2) ∧
      ex2.remove 0 = some (some (1, 1), Map.new) ∧
      (Map.new : Map ℕ ℕ ℕ) ≠ ex1 :=
  ⟨reachable_ex1, by decide, by decide, by decide⟩

/-- C7 (amended): for a reachable state and a key NOT currently present,
`add(k, o, v)` followed by `remove(k)` returns `Some((o, v))` and restores
the container to exactly the pre-add state (both indexes equal, `Finmap`
equality being content equality exactly like Rust's `HashMap`/`BTreeMap`
equality). -/
theorem claim_C7_round_trip {s : Map K O V} (h : Reachable s) (k : K) (o : O)
    (v : V) (hk : s.values.lookup k = none) :
    ∃ s1, s.add k o v = some (none, s1) ∧
      s1.remove k = some (some (o, v), s) := by
  have hc := reachable_canonical h
  rcases add_spec_core hc k o v with ⟨s1, he, hv, hcs⟩
  rw [hk] at he
  have hk1 : s1.values.lookup k = some (o, v) := by
    rw [hv]
    exact Finmap.lookup_insert s.values
  rcases remove_spec_present hcs hk1 with ⟨s2, he2, hv2, hcs2⟩
  have hs2 : s2 = s := by
    refine canonical_ext hcs2 hc ?_
    rw [hv2, hv, finmap_erase_insert hk]
  exact ⟨s1, he, hs2 ▸ he2⟩

theorem claim_C7_witness :
    Reachable ex1 ∧ ex1.values.lookup 1 = none ∧
      (∃ s1, ex1.add 1 5 7 = some (none, s1) ∧
        s1.remove 1 = some (some (5, 7), ex1)) :=
  ⟨reachable_ex1, by decide,
    claim_C7_round_trip reachable_ex1 1 5 7 (by decide)⟩

/-- C9: frame property of `add` and `remove`.  For any key `k'` other than
the operated key `k`, both operations leave the primary-index entry of `k'`
and the membership of `k'` in any order-group of the secondary index exactly
as they were. -/
theorem claim_C9_frame {s : Map K O V} (h : Reachable s) {k k' : K}
    (hne : k' ≠ k) :
    (∀ o v r s', s.add k o v = some (r, s') →
      s'.values.lookup k' = s.values.lookup k' ∧
      ∀ o', ((∃ g, s'.ordered_keys.lookup o' = some g ∧ k' ∈ g) ↔
        (∃ g, s.ordered_keys.lookup o' = some g ∧ k' ∈ g))) ∧
    (∀ r s', s.remove k = some (r, s') →
      s'.values.lookup k' = s.values.lookup k' ∧
      ∀ o', ((∃ g, s'.ordered_keys.lookup o' = some g ∧ k' ∈ g) ↔
        (∃ g, s.ordered_keys.lookup o' = some g ∧ k' ∈ g))) := by
  have hc := reachable_canonical h
  have main : ∀ t : Map K O V, Canonical t →
      t.values.lookup k' = s.values.lookup k' →
      ∀ o', ((∃ g, t.ordered_keys.lookup o' = some g ∧ k' ∈ g) ↔
        (∃ g, s.ordered_keys.lookup o' = some g ∧ k' ∈ g)) := by
    intro t hct hlk o'
    rw [canonical_mem_group_iff hct, canonical_mem_group_iff hc,
      mem_groupOf, mem_groupOf, hlk]
  constructor
  · intro o v r s' heq
    rcases add_spec_core hc k o v with ⟨t, ht, hv, hct⟩
    have hts : t = s' :=
      congrArg Prod.snd (Option.some.inj (ht.symm.trans heq))
    subst hts
    have hlk : t.values.lookup k' = s.values.lookup k' := by
      rw [hv]
      exact Finmap.lookup_insert_of_ne _ hne
    exact ⟨hlk, main t hct hlk⟩
  · intro r s' heq
    cases hk : s.values.lookup k with
    | none =>
      have hss : s = s' :=
        congrArg Prod.snd
          (Option.some.inj ((remove_spec_absent hk).symm.trans heq))
      subst hss
      exact ⟨rfl, fun o' => Iff.rfl⟩
    | some p =>
      rcases p with ⟨o, v⟩
      rcases remove_spec_present hc hk with ⟨t, ht, hv, hct⟩
      have hts : t = s' :=
        congrArg Prod.snd (Option.some.inj (ht.symm.trans heq))
      subst hts
      have hlk : t.values.lookup k' = s.values.lookup k' := by
        rw [hv]
        exact Finmap.lookup_erase_ne hne
      exact ⟨hlk, main t hct hlk⟩

theorem claim_C9_witness :
    Reachable ex1 ∧ (1 : ℕ) ≠ 0 ∧
      ((∀ o v r s', ex1.add 0 o v = some (r, s') →
        s'.values.lookup 1 = ex1.values.lookup 1 ∧
        ∀ o', ((∃ g, s'.ordered_keys.lookup o' = some g ∧ 1 ∈ g) ↔
          (∃ g, ex1.ordered_keys.lookup o' = some g ∧ 1 ∈ g))) ∧
      (∀ r s', ex1.remove 0 = some (r, s') →
        s'.values.lookup 1 = ex1.values.lookup 1 ∧
        ∀ o', ((∃ g, s'.ordered_keys.lookup o' = some g ∧ 1 ∈ g) ↔
          (∃ g, ex1.ordered_keys.lookup o' = some g ∧ 1 ∈ g)))) :=
  ⟨reachable_ex1, by decide,
    claim_C9_frame reachable_ex1 (show (1 : ℕ) ≠ 0 by decide)⟩

/-- C10: on a reachable non-empty state, the group returned by
`peek_smallest` and the group returned by `remove_smallest` are non-empty
and contain each key at most once. -/
theorem claim_C10_nodup {s : Map K O V} (h : Reachable s)
    (hv : s.values ≠ ∅) :
    (∃ o l, s.peek_smallest = some (some (o, l)) ∧ l ≠ [] ∧
      (l.map Prod.fst).Nodup) ∧
    (∃ o l s', s.remove_smallest = some (some (o, l), s') ∧ l ≠ [] ∧
      (l.map Prod.fst).Nodup) := by
  have hc := reachable_canonical h
  have build : ∀ o : O, s.ordered_keys.lookup o = some (groupOf s.values o) →
      ((sortKeys (groupOf s.values o)).filterMap (entryOf s.values) ≠ [] ∧
      (((sortKeys (groupOf s.values o)).filterMap
        (entryOf s.values)).map Prod.fst).Nodup) := by
    intro o hlook
    have hfst : ((sortKeys (groupOf s.values o)).filterMap
        (entryOf s.values)).map Prod.fst = sortKeys (groupOf s.values o) :=
      entry_filterMap_fst sortKeys_group_sub
    constructor
    · intro hnil
      have hnn := sortKeys_ne_nil (group_nonempty_of_lookup hc hlook)
      rw [hnil] at hfst
      exact hnn hfst.symm
    · rw [hfst]
      exact nodup_sortKeys _
  constructor
  · rcases peek_smallest_spec_core hc hv with ⟨o, l, he, hl, hlook, -⟩
    rcases build o hlook with ⟨h1, h2⟩
    refine ⟨o, l, he, ?_, ?_⟩
    · rw [hl]
      exact h1
    · rw [hl]
      exact h2
  · rcases remove_smallest_spec_core hc hv with ⟨o, l, s', he, hl, hlook, -, -, -, -⟩
    rcases build o hlook with ⟨h1, h2⟩
    refine ⟨o, l, s', he, ?_, ?_⟩
    · rw [hl]
      exact h1
    · rw [hl]
      exact h2

theorem claim_C10_witness :
    Reachable ex1 ∧ ex1.values ≠ ∅ ∧
      ((∃ o l, ex1.peek_smallest = some (some (o, l)) ∧ l ≠ [] ∧
        (l.map Prod.fst).Nodup) ∧
      (∃ o l s', ex1.remove_smallest = some (some (o, l), s') ∧ l ≠ [] ∧
        (l.map Prod.fst).Nodup)) :=
  ⟨reachable_ex1, by decide, claim_C10_nodup reachable_ex1 (by decide)⟩

/-- C4: `remove_smallest` on a reachable non-empty state returns the minimum
order and exactly the (key, value) pairs held under it — the very same
selection `peek_smallest` makes — and afterwards those keys are gone from the
primary index, the minimum group is gone from the secondary index, and all
other entries of both indexes are unchanged; on the empty state it returns
the absence signal and the container itself, unchanged. -/
theorem claim_C4_remove_smallest {s : Map K O V} (h : Reachable s) :
    (s.values = ∅ → s.remove_smallest = some (none, s)) ∧
    (s.values ≠ ∅ → ∃ o l s', s.remove_smallest = some (some (o, l), s') ∧
      s.peek_smallest = some (some (o, l)) ∧
      (∀ k v, ((k, v) ∈ l ↔ s.values.lookup k = some (o, v))) ∧
      (∀ o' k v, s.values.lookup k = some (o', v) → o ≤ o') ∧
      (∀ k v, (k, v) ∈ l → s'.values.lookup k = none) ∧
      s'.ordered_keys.lookup o = none ∧
      (∀ k, (∀ v, s.values.lookup k ≠ some (o, v)) →
        s'.values.lookup k = s.values.lookup k) ∧
      (∀ o', o' ≠ o → s'.ordered_keys.lookup o' = s.ordered_keys.lookup o')) := by
  have hc := reachable_canonical h
  refine ⟨fun hv => remove_smallest_empty hc hv, fun hv => ?_⟩
  rcases remove_smallest_spec_core hc hv with
    ⟨o, l, s', he, hl, hlook, hmin, hvlook, hord, -⟩
  rcases peek_smallest_spec_core hc hv with ⟨o₂, l₂, he₂, hl₂, hlook₂, hmin₂⟩
  have ho : o₂ = o := by
    rcases exists_entry_of_lookup_group hc hlook with ⟨a, w, hw⟩
    rcases exists_entry_of_lookup_group hc hlook₂ with ⟨a₂, w₂, hw₂⟩
    exact le_antisymm (hmin₂ o a w hw) (hmin o₂ a₂ w₂ hw₂)
  have hll : l₂ = l := by
    rw [hl₂, hl, ho]
  rw [ho, hll] at he₂
  refine ⟨o, l, s', he, he₂, ?_, hmin, ?_, ?_, ?_, ?_⟩
  · intro k v
    rw [hl]
    exact mem_group_entries
  · intro k v hkv
    rw [hl] at hkv
    have hk : s.values.lookup k = some (o, v) := mem_group_entries.1 hkv
    rw [hvlook k, if_pos (mem_groupOf.2 ⟨v, hk⟩)]
  · rw [hord]
    exact Finmap.lookup_erase o s.ordered_keys
  · intro k hknot
    rw [hvlook k, if_neg]
    intro hmem
    rcases mem_groupOf.1 hmem with ⟨w, hw⟩
    exact hknot w hw
  · intro o' ho'
    rw [hord]
    exact Finmap.lookup_erase_ne ho'

theorem claim_C4_witness :
    Reachable ex1 ∧ ex1.values ≠ ∅ ∧
      ((ex1.values = ∅ → ex1.remove_smallest = some (none, ex1)) ∧
      (ex1.values ≠ ∅ → ∃ o l s',
        ex1.remove_smallest = some (some (o, l), s') ∧
        ex1.peek_smallest = some (some (o, l)) ∧
        (∀ k v, ((k, v) ∈ l ↔ ex1.values.lookup k = some (o, v))) ∧
        (∀ o' k v, ex1.values.lookup k = some (o', v) → o ≤ o') ∧
        (∀ k v, (k, v) ∈ l → s'.values.lookup k = none) ∧
        s'.ordered_keys.lookup o = none ∧
        (∀ k, (∀ v, ex1.values.lookup k ≠ some (o, v)) →
          s'.values.lookup k = ex1.values.lookup k) ∧
        (∀ o', o' ≠ o → s'.ordered_keys.lookup o' = ex1.ordered_keys.lookup o'))) :=
  ⟨reachable_ex1, by decide, claim_C4_remove_smallest reachable_ex1⟩

/-! ### Draining the container -/

theorem group_entries_props {s : Map K O V} (hc : Canonical s) {o : O}
    (hlook : s.ordered_keys.lookup o = some (groupOf s.values o)) :
    (sortKeys (groupOf s.values o)).filterMap (entryOf s.values) ≠ [] ∧
    (((sortKeys (groupOf s.values o)).filterMap
      (entryOf s.values)).map Prod.fst).Nodup := by
  have hfst : ((sortKeys (groupOf s.values o)).filterMap
      (entryOf s.values)).map Prod.fst = sortKeys (groupOf s.values o) :=
    entry_filterMap_fst sortKeys_group_sub
  constructor
  · intro hnil
    have hnn := sortKeys_ne_nil (group_nonempty_of_lookup hc hlook)
    rw [hnil] at hfst
    exact hnn hfst.symm
  · rw [hfst]
    exact nodup_sortKeys _

theorem drain_core :
    ∀ (fuel : Nat) (s : Map K O V), Reachable s →
      s.ordered_keys.keys.card ≤ fuel →
      ∃ res t, drain fuel s = some (res, t) ∧
        t.values = ∅ ∧ t.ordered_keys = ∅ ∧
        List.Pairwise (· < ·) (res.map Prod.fst) ∧
        (∀ g ∈ res, g.2 ≠ [] ∧ (g.2.map Prod.fst).Nodup) ∧
        (∀ k o v, s.values.lookup k = some (o, v) ↔
          ∃ l, (o, l) ∈ res ∧ (k, v) ∈ l) := by
  intro fuel
  induction fuel with
  | zero =>
    intro s h hf
    have hc := reachable_canonical h
    have hkeys : s.ordered_keys.keys = ∅ :=
      Finset.card_eq_zero.1 (Nat.le_zero.1 hf)
    have hval : s.values = ∅ := by
      by_contra hne
      rcases (canonical_keys_nonempty hc).2 hne with ⟨o, ho⟩
      rw [hkeys] at ho
      exact Finset.not_mem_empty o ho
    refine ⟨[], s, rfl, hval, canonical_ordered_empty hc hval,
      List.Pairwise.nil, ?_, ?_⟩
    · intro g hg
      cases hg
    · intro k o v
      rw [hval, Finmap.lookup_empty]
      simp
  | succ n ih =>
    intro s h hf
    have hc := reachable_canonical h
    by_cases hv : s.values = ∅
    · have hrs := remove_smallest_empty hc hv
      refine ⟨[], s, ?_, hv, canonical_ordered_empty hc hv,
        List.Pairwise.nil, ?_, ?_⟩
      · simp only [drain, hrs]
      · intro g hg
        cases hg
      · intro k o v
        rw [hv, Finmap.lookup_empty]
        simp
    · rcases remove_smallest_spec_core hc hv with
        ⟨o, l, s', he, hl, hlook, hmin, hvlook, hord, -⟩
      have hreach' : Reachable s' := Reachable.remove_smallest h he
      have hcard : s'.ordered_keys.keys.card ≤ n := by
        have homem : o ∈ s.ordered_keys.keys := by
          rw [Finmap.mem_keys, ← Finmap.lookup_isSome, hlook]
          rfl
        rw [hord, Finmap.keys_erase, Finset.card_erase_of_mem homem]
        omega
      rcases ih s' hreach' hcard with ⟨res, t, hdr, htv, hto, hpw, hgr, hiff⟩
      refine ⟨(o, l) :: res, t, ?_, htv, hto, ?_, ?_, ?_⟩
      · simp only [drain, he, hdr]
      · rw [List.map_cons]
        refine List.Pairwise.cons ?_ hpw
        intro o'' ho''
        rcases List.mem_map.1 ho'' with ⟨⟨o₃, l₃⟩, hmem, hfst⟩
        have hfst' : o₃ = o'' := hfst
        subst hfst'
        rcases hgr _ hmem with ⟨hne3, -⟩
        rcases List.exists_mem_of_ne_nil l₃ hne3 with ⟨⟨k₃, v₃⟩, hkv₃⟩
        have hs3 : s'.values.lookup k₃ = some (o₃, v₃) :=
          (hiff k₃ o₃ v₃).2 ⟨l₃, hmem, hkv₃⟩
        have hcomb := hs3.symm.trans (hvlook k₃)
        by_cases hmem3 : k₃ ∈ groupOf s.values o
        · rw [if_pos hmem3] at hcomb
          cases hcomb
        · rw [if_neg hmem3] at hcomb
          have hlk : s.values.lookup k₃ = some (o₃, v₃) := hcomb.symm
          have hle : o ≤ o₃ := hmin o₃ k₃ v₃ hlk
          refine lt_of_le_of_ne hle ?_
          intro heq
          have heq' : o = o₃ := heq
          exact hmem3 (mem_groupOf.2 ⟨v₃, heq'.symm ▸ hlk⟩)
      · intro g hg
        rcases List.mem_cons.1 hg with hg | hg
        · subst hg
          rcases group_entries_props hc hlook with ⟨h1, h2⟩
          constructor
          · show l ≠ []
            rw [hl]
            exact h1
          · show (l.map Prod.fst).Nodup
            rw [hl]
            exact h2
        · exact hgr g hg
      · intro k o' v
        constructor
        · intro hkv
          by_cases hmem : k ∈ groupOf s.values o
          · rcases mem_groupOf.1 hmem with ⟨w, hw⟩
            rcases Prod.ext_iff.1 (Option.some.inj (hkv.symm.trans hw)) with
              ⟨ho1, hv1⟩
            have ho2 : o' = o := ho1
            have hv2 : v = w := hv1
            subst ho2
            refine ⟨l, List.mem_cons_self _ _, ?_⟩
            rw [hl]
            exact mem_group_entries.2 hkv
          · have hv3 := hvlook k
            rw [if_neg hmem] at hv3
            rcases (hiff k o' v).1 (hv3.trans hkv) with ⟨l', hmem', hkv'⟩
            exact ⟨l', List.mem_cons_of_mem _ hmem', hkv'⟩
        · rintro ⟨l', hmem', hkv'⟩
          rcases List.mem_cons.1 hmem' with hm | hm
          · rcases Prod.ext_iff.1 hm with ⟨ho1, hl1⟩
            have ho2 : o' = o := ho1
            have hl2 : l' = l := hl1
            subst ho2
            subst hl2
            rw [hl] at hkv'
            exact mem_group_entries.1 hkv'
          · have hs' := (hiff k o' v).2 ⟨l', hm, hkv'⟩
            have hv3 := hvlook k
            by_cases hmem : k ∈ groupOf s.values o
            · rw [if_pos hmem] at hv3
              rw [hv3] at hs'
              cases hs'
            · rw [if_neg hmem] at hv3
              rw [← hv3]
              exact hs'

/-- C6: drain-to-empty.  Calling `remove_smallest` repeatedly (`drain`, with
any fuel bound of at least the number of distinct orders) never panics,
consumes every entry exactly once (each entry of the initial state appears in
exactly one returned group — the one carrying its order — and group key lists
are duplicate-free while the returned orders are strictly increasing, hence
non-decreasing across successive calls), and leaves both indexes empty. -/
theorem claim_C6_drain {s : Map K O V} (h : Reachable s) {fuel : Nat}
    (hf : s.ordered_keys.keys.card ≤ fuel) :
    ∃ res t, drain fuel s = some (res, t) ∧
      t.values = ∅ ∧ t.ordered_keys = ∅ ∧
      List.Chain' (· ≤ ·) (res.map Prod.fst) ∧
      List.Pairwise (· < ·) (res.map Prod.fst) ∧
      (∀ g ∈ res, g.2 ≠ [] ∧ (g.2.map Prod.fst).Nodup) ∧
      (∀ k o v, s.values.lookup k = some (o, v) ↔
        ∃ l, (o, l) ∈ res ∧ (k, v) ∈ l) := by
  rcases drain_core fuel s h hf with ⟨res, t, h1, h2, h3, h4, h5, h6⟩
  refine ⟨res, t, h1, h2, h3, ?_, h4, h5, h6⟩
  exact List.chain'_iff_pairwise.2 (h4.imp (fun hlt => le_of_lt hlt))

theorem claim_C6_witness :
    Reachable ex1 ∧ ex1.ordered_keys.keys.card ≤ 1 ∧
      (∃ res t, drain 1 ex1 = some (res, t) ∧
        t.values = ∅ ∧ t.ordered_keys = ∅ ∧
        List.Chain' (· ≤ ·) (res.map Prod.fst) ∧
        List.Pairwise (· < ·) (res.map Prod.fst) ∧
        (∀ g ∈ res, g.2 ≠ [] ∧ (g.2.map Prod.fst).Nodup) ∧
        (∀ k o v, ex1.values.lookup k = some (o, v) ↔
          ∃ l, (o, l) ∈ res ∧ (k, v) ∈ l)) :=
  ⟨reachable_ex1, by decide, claim_C6_drain reachable_ex1 (by decide)⟩

end Ordmap
